import Mathlib

/-!
Shallow embedding of the rs-piano-midi renderer (src/main.rs).

Machine floats (f32/f64) are modelled by exact rationals ℚ wherever the
source only performs field arithmetic, comparisons and integer casts; the
geometric primitives that need a square root (draw_line, draw_curve) are
modelled over ℝ.  Rust integer casts are modelled explicitly:
a nonnegative float cast `as usize` truncates, i.e. takes the floor.
-/

/-- Canvas width in pixels (source constant WIDTH = 640). -/
def WIDTH : ℕ := 640

/-- Canvas height in pixels (source constant HEIGHT = 480). -/
def HEIGHT : ℕ := 480

/-- Source constant SLOPE = 30.0 (f32). -/
def SLOPE : ℚ := 30

/-- Source constant SLOPE_ANGLE = SLOPE / 480.0 = 0.0625, exact in f32. -/
def SLOPE_ANGLE : ℚ := SLOPE / 480

/-- The coordinate mapper of the source:
`(value - start1) / (stop1 - start1) * (stop2 - start2) + start2`. -/
def map (value start1 stop1 start2 stop2 : ℚ) : ℚ :=
  (value - start1) / (stop1 - start1) * (stop2 - start2) + start2

/-- The two compositing modes of the canvas (source enum BlendMode). -/
inductive BlendMode where
  | Replace : BlendMode
  | Blend : BlendMode
deriving DecidableEq

/-- The canvas state: flat RGBA byte buffer (4 bytes per pixel, row major),
palette, pen color and blend mode (source struct Canvas).  Bytes are
naturals, in range [0, 255] by construction of every write. -/
structure Canvas where
  buffer : List ℕ
  palette : List (ℕ × ℕ × ℕ × ℕ)
  pen_color : ℕ × ℕ × ℕ × ℕ
  blend_mode : BlendMode
deriving DecidableEq

/-- Source Canvas::idx: `(x + y * WIDTH) * 4`. -/
def idx (x y : ℕ) : ℕ := (x + y * WIDTH) * 4

/-- The five PALETTE entries after hex_to_rgb (which parses the two-digit
hex pairs of "#160729", "#171856", "#243771", "#416e8f", "#dbf3f1" and
forces alpha to 255). -/
def PALETTE_RGB : List (ℕ × ℕ × ℕ × ℕ) :=
  [(0x16, 0x07, 0x29, 255), (0x17, 0x18, 0x56, 255), (0x24, 0x37, 0x71, 255),
   (0x41, 0x6e, 0x8f, 255), (0xdb, 0xf3, 0xf1, 255)]

/-- Source Canvas::select_color: `self.pen_color =
self.palette[color as usize % self.palette.len()]`.  The list access is
modelled with getD; the modulo keeps the index in bounds whenever the
palette is nonempty. -/
def Canvas.select_color (c : Canvas) (color : ℕ) : Canvas :=
  { c with pen_color := c.palette.getD (color % c.palette.length) (0, 0, 0, 0) }

/-- Source Canvas::point_replace: writes the four pen components at
buffer_idx .. buffer_idx+3. -/
def Canvas.point_replace (c : Canvas) (i : ℕ) : Canvas :=
  { c with buffer :=
      ((((c.buffer.set i c.pen_color.1).set (i + 1) c.pen_color.2.1).set
          (i + 2) c.pen_color.2.2.1).set (i + 3) c.pen_color.2.2.2) }

/-- Rust `as u8` on a finite f32 value: truncate toward zero and saturate
into [0, 255].  (For the nonnegative values produced by blending, this is
the floor.) -/
def f32_to_u8 (x : ℚ) : ℕ := if x < 0 then 0 else min (⌊x⌋).toNat 255

/-- Source Canvas::point_blend: alpha 0 is a no-op, alpha 255 defers to
point_replace, otherwise each channel is `(pen * mix) + (dst * (1 - mix))`
with `mix = a / 255`, cast back to u8. -/
def Canvas.point_blend (c : Canvas) (i : ℕ) : Canvas :=
  let r := c.pen_color.1
  let g := c.pen_color.2.1
  let b := c.pen_color.2.2.1
  let a := c.pen_color.2.2.2
  if a = 0 then c
  else if a = 255 then c.point_replace i
  else
    let mix : ℚ := (a : ℚ) / 255
    let dst_r : ℚ := (c.buffer.getD i 0 : ℚ)
    let dst_g : ℚ := (c.buffer.getD (i + 1) 0 : ℚ)
    let dst_b : ℚ := (c.buffer.getD (i + 2) 0 : ℚ)
    let dst_a : ℚ := (c.buffer.getD (i + 3) 0 : ℚ)
    { c with buffer :=
        ((((c.buffer.set i (f32_to_u8 ((r : ℚ) * mix + dst_r * (1 - mix)))).set
            (i + 1) (f32_to_u8 ((g : ℚ) * mix + dst_g * (1 - mix)))).set
            (i + 2) (f32_to_u8 ((b : ℚ) * mix + dst_b * (1 - mix)))).set
            (i + 3) (f32_to_u8 ((a : ℚ) * mix + dst_a * (1 - mix)))) }

/-- Source Canvas::draw_point: clip test
`pos.x >= 640.0 || pos.x < 0.0 || pos.y >= 480.0 || pos.y < 0.0`, then
dispatch on the blend mode at index `idx(pos.x as usize, pos.y as usize)`.
Polymorphic over the coordinate field so that the same definition serves
the exact-rational facts and the real-valued geometry. -/
def Canvas.draw_point {K : Type} [LinearOrderedField K] [FloorRing K]
    (c : Canvas) (pos : K × K) : Canvas :=
  if 640 ≤ pos.1 ∨ pos.1 < 0 ∨ 480 ≤ pos.2 ∨ pos.2 < 0 then c
  else
    let buffer_idx := idx (⌊pos.1⌋).toNat (⌊pos.2⌋).toNat
    match c.blend_mode with
    | BlendMode.Replace => c.point_replace buffer_idx
    | BlendMode.Blend => c.point_blend buffer_idx

/-- A point-mass particle (source struct Particle): position, velocity and
age, all f32 in the source, modelled over ℚ. -/
structure Particle where
  pos : ℚ × ℚ
  vel : ℚ × ℚ
  lifetime : ℚ
deriving DecidableEq

/-- Source constant GRAVITY = Vec2 { x: 0.0, y: 1.0 }. -/
def GRAVITY : ℚ × ℚ := (0, 1)

/-- Source Particle::update: `pos += vel; vel += GRAVITY;
lifetime += FRAME_TIME as f32`.  The frame duration is the parameter ft. -/
def Particle.update (ft : ℚ) (p : Particle) : Particle :=
  { pos := (p.pos.1 + p.vel.1, p.pos.2 + p.vel.2),
    vel := (p.vel.1 + GRAVITY.1, p.vel.2 + GRAVITY.2),
    lifetime := p.lifetime + ft }

/-- The particle system state (source struct Particles): live particles and
the pending one-frame trail segments. -/
structure Particles where
  particles : List Particle
  lines : List ((ℚ × ℚ) × (ℚ × ℚ))
deriving DecidableEq

/-- Source Particles::update: integrate every particle one step, then keep
exactly those with `!(particle.pos.y >= HEIGHT as f32)`. -/
def Particles.update (ft : ℚ) (st : Particles) : Particles :=
  let new :=
    (st.particles.map (Particle.update ft)).filter
      (fun particle => !(decide ((480 : ℚ) ≤ particle.pos.2)))
  { st with particles := new }

/-- Source Particles::particles_for_note: computes the landing point by
projecting down the slope to the bottom boundary, pushes the trail segment,
and spawns an explosion at the landing point.  spawn_explosion draws its
particle count and velocities from fastrand; that randomness is abstracted
as the oracle `explode`, which supplies the list of particles spawned at a
given position (between 2 and 4 of them in the source); no property proved
here depends on its output. -/
def Particles.particles_for_note (explode : ℚ × ℚ → List Particle)
    (st : Particles) (pos : ℚ × ℚ) : Particles :=
  let rest_y := (480 : ℚ) - pos.2
  let end_x := rest_y * SLOPE_ANGLE + pos.1
  let e : ℚ × ℚ := (end_x, 480)
  { st with lines := st.lines ++ [(pos, e)],
            particles := st.particles ++ explode e }

/-- Rust `slice::partition_point`, per its documented contract: on a slice
partitioned by p (all elements satisfying p before all that do not, which
the sortedness hypotheses of the theorems below guarantee), it returns the
index of the first element of the second partition, i.e. the length of the
maximal satisfying prefix. -/
def partition_point {α : Type} (l : List α) (p : α → Bool) : ℕ :=
  (l.takeWhile p).length

/-- Source Sketch::update_visible_notes (minus the time recomputation,
taken as the parameter t): skip = NOTES.partition_point(time < t), then
take from there while time < t + VIEW.  The note table and the view length
are the parameters notes and v (the source instantiates notes := NOTES,
t := frame * FRAME_TIME, v := VIEW). -/
def update_visible_notes (notes : List (ℚ × ℕ)) (t v : ℚ) : List (ℚ × ℕ) :=
  let skip := partition_point notes (fun n => decide (n.1 < t))
  (notes.drop skip).takeWhile (fun n => decide (n.1 < t + v))

/-- Source Sketch::pos_for: vertical position from time-to-arrival, then a
slope offset, then horizontal position from pitch.  Parameters: t the
current time, v the view length, low/high the extreme pitches. -/
def pos_for (t v : ℚ) (low high : ℕ) (note : ℚ × ℕ) : ℚ × ℚ :=
  let time_left := note.1 - t
  let y := map time_left 0 v (480 : ℚ) 0
  let slope_offset := map y 0 (480 : ℚ) 0 SLOPE
  let x := map (note.2 : ℚ) (low : ℚ) (high : ℚ) SLOPE ((640 : ℚ) - SLOPE)
  (x + slope_offset, y)

/-- Source Sketch::update: advance the particle system, recompute the time
and the visible window, then for every visible note with
`time - self.time < FRAME_TIME` trigger particles_for_note at its screen
position.  The second component of the result is instrumentation absent
from the source: the log of positions passed to particles_for_note, in
call order, used to state the trigger-count property. -/
def sketch_update (explode : ℚ × ℚ → List Particle) (notes : List (ℚ × ℕ))
    (frame : ℕ) (ft v : ℚ) (low high : ℕ) (droplets : Particles) :
    Particles × List (ℚ × ℚ) :=
  let d := droplets.update ft
  let t : ℚ := (frame : ℚ) * ft
  let visible := update_visible_notes notes t v
  visible.foldl
    (fun acc note =>
      if note.1 - t < ft then
        (acc.1.particles_for_note explode (pos_for t v low high note),
         acc.2 ++ [pos_for t v low high note])
      else acc)
    (d, [])

/-- Source note_find_lowest_highest: a fold over the note table starting
from (255, 0), lowering the first component and raising the second. -/
def note_find_lowest_highest (notes : List (ℚ × ℕ)) : ℕ × ℕ :=
  notes.foldl
    (fun lh n => (if n.2 < lh.1 then n.2 else lh.1, if lh.2 < n.2 then n.2 else lh.2))
    (255, 0)

/-- Rust f32::round: round half away from zero. -/
def rustRound (x : ℚ) : ℤ := if 0 ≤ x then ⌊x + 1 / 2⌋ else -⌊-x + 1 / 2⌋

/-- Rust `as u8` applied to an integer-valued float: saturate into
[0, 255]. -/
def u8cast (z : ℤ) : ℕ := min z.toNat 255

/-- The palette index computed in Sketch::draw:
`map(note.1 as f32, low as f32, high as f32, 0.0, 5.0).round() as u8`. -/
def paletteIndex (pitch low high : ℕ) : ℕ :=
  u8cast (rustRound (map (pitch : ℚ) (low : ℚ) (high : ℚ) 0 5))

/-- The shape of an f32 value, as far as the clip test and the usize cast
in draw_point observe it: a finite value (exact rational), a NaN, or an
infinity.  Comparisons with a NaN are always false; Rust `as usize` is the
saturating cast (NaN to 0, truncation clamped into [0, usize::MAX]). -/
inductive F32 where
  | fin : ℚ → F32
  | nan : F32
  | inf : F32
  | ninf : F32
deriving DecidableEq

/-- IEEE comparison `x >= c` for a finite literal c. -/
def F32.ge : F32 → ℚ → Bool
  | F32.fin q, c => decide (c ≤ q)
  | F32.nan, _ => false
  | F32.inf, _ => true
  | F32.ninf, _ => false

/-- IEEE comparison `x < c` for a finite literal c. -/
def F32.lt : F32 → ℚ → Bool
  | F32.fin q, c => decide (q < c)
  | F32.nan, _ => false
  | F32.inf, _ => false
  | F32.ninf, _ => true

/-- Rust `as usize` on an f32: NaN to 0, negatives to 0, truncation
saturated at usize::MAX. -/
def F32.toUsize : F32 → ℕ
  | F32.fin q => if q < 0 then 0 else min (⌊q⌋).toNat (2 ^ 64 - 1)
  | F32.nan => 0
  | F32.inf => 2 ^ 64 - 1
  | F32.ninf => 0

/-- The clip test of Canvas::draw_point, on f32 values:
`pos.x >= 640.0 || pos.x < 0.0 || pos.y >= 480.0 || pos.y < 0.0`. -/
def clipped (pos : F32 × F32) : Bool :=
  pos.1.ge 640 || pos.1.lt 0 || pos.2.ge 480 || pos.2.lt 0

/-- The buffer index Canvas::draw_point computes when the clip test
passes: `idx(pos.x as usize, pos.y as usize)`. -/
def draw_point_index (pos : F32 × F32) : ℕ :=
  idx pos.1.toUsize pos.2.toUsize

/-- Euclidean distance of glam Vec2::distance, over ℝ. -/
noncomputable def euclid (u v : ℝ × ℝ) : ℝ :=
  Real.sqrt ((u.1 - v.1) ^ 2 + (u.2 - v.2) ^ 2)

/-- The sample points of Canvas::draw_line: step count is the larger
absolute delta cast `as usize`, and each step lands at
`from + delta.normalize() * step` (glam normalize divides by the Euclidean
length). -/
noncomputable def lineSamples (p q : ℝ × ℝ) : List (ℝ × ℝ) :=
  let dx := q.1 - p.1
  let dy := q.2 - p.2
  let axis_biggest_distance : ℕ := (⌊max |dx| |dy|⌋).toNat
  let len := Real.sqrt (dx ^ 2 + dy ^ 2)
  (List.range axis_biggest_distance).map
    (fun step : ℕ => (p.1 + dx / len * (step : ℝ), p.2 + dy / len * (step : ℝ)))

/-- Source Canvas::draw_line: draw_point at each of the line samples, in
order. -/
noncomputable def Canvas.draw_line (c : Canvas) (p q : ℝ × ℝ) : Canvas :=
  (lineSamples p q).foldl Canvas.draw_point c

/-- The sample points of Canvas::draw_curve: `points` is the perimeter of
the control triangle, the loop runs `for i in 1..points as usize`, and each
sample is the double linear interpolation of the source (point1 on
start-control, point2 on control-end, point3 between them) at parameter
`i / points`. -/
noncomputable def curvePoints (s ctl e : ℝ × ℝ) : List (ℝ × ℝ) :=
  let points : ℝ := euclid s ctl + euclid ctl e + euclid e s
  let n : ℕ := (⌊points⌋).toNat
  (List.range' 1 (n - 1)).map
    (fun i : ℕ =>
      let proportion : ℝ := (i : ℝ) / points
      let point1 := (s.1 + (ctl.1 - s.1) * proportion, s.2 + (ctl.2 - s.2) * proportion)
      let point2 := (ctl.1 + (e.1 - ctl.1) * proportion, ctl.2 + (e.2 - ctl.2) * proportion)
      (point1.1 + (point2.1 - point1.1) * proportion,
       point1.2 + (point2.2 - point1.2) * proportion))

/-- Source Canvas::draw_curve: draw_point at each of the curve samples, in
order. -/
noncomputable def Canvas.draw_curve (c : Canvas) (s ctl e : ℝ × ℝ) : Canvas :=
  (curvePoints s ctl e).foldl Canvas.draw_point c

/-! Helper lemmas (shared; none of them is a claim theorem). -/

theorem getD_set_self : ∀ (l : List ℕ) (i x : ℕ), i < l.length → (l.set i x).getD i 0 = x := by
  intro l
  induction l with
  | nil => intro i x h; simp at h
  | cons a t ih =>
    intro i x h
    cases i with
    | zero => rfl
    | succ n => exact ih n x (by simpa using h)

theorem getD_set_ne : ∀ (l : List ℕ) (i j x : ℕ), i ≠ j → (l.set i x).getD j 0 = l.getD j 0 := by
  intro l
  induction l with
  | nil => intro i j x _; rfl
  | cons a t ih =>
    intro i j x h
    cases i with
    | zero =>
      cases j with
      | zero => exact absurd rfl h
      | succ m => rfl
    | succ n =>
      cases j with
      | zero => rfl
      | succ m => exact ih n m x (fun he => h (congrArg Nat.succ he))

/-- Reading each of the four channels back out of the four consecutive
writes of a pixel. -/
theorem buffer4_getD (l : List ℕ) (i w x y z : ℕ) (h : i + 3 < l.length) :
    ((((l.set i w).set (i + 1) x).set (i + 2) y).set (i + 3) z).getD i 0 = w
  ∧ ((((l.set i w).set (i + 1) x).set (i + 2) y).set (i + 3) z).getD (i + 1) 0 = x
  ∧ ((((l.set i w).set (i + 1) x).set (i + 2) y).set (i + 3) z).getD (i + 2) 0 = y
  ∧ ((((l.set i w).set (i + 1) x).set (i + 2) y).set (i + 3) z).getD (i + 3) 0 = z := by
  have hl : ∀ (m : List ℕ) (a b : ℕ), (m.set a b).length = m.length := fun m a b => m.length_set a b
  refine ⟨?_, ?_, ?_, ?_⟩
  · rw [getD_set_ne _ _ _ _ (by omega), getD_set_ne _ _ _ _ (by omega),
      getD_set_ne _ _ _ _ (by omega), getD_set_self _ _ _ (by omega)]
  · rw [getD_set_ne _ _ _ _ (by omega), getD_set_ne _ _ _ _ (by omega),
      getD_set_self _ _ _ (by rw [hl]; omega)]
  · rw [getD_set_ne _ _ _ _ (by omega),
      getD_set_self _ _ _ (by rw [hl, hl]; omega)]
  · rw [getD_set_self _ _ _ (by rw [hl, hl, hl]; omega)]

theorem f32_to_u8_of_bounds (x : ℚ) (h0 : 0 ≤ x) (h255 : x ≤ 255) :
    f32_to_u8 x = (⌊x⌋).toNat := by
  rw [f32_to_u8, if_neg (not_lt.mpr h0)]
  refine min_eq_left ?_
  have hf : ⌊x⌋ ≤ 255 := by
    have := Int.floor_le_floor h255
    simpa using this
  omega

theorem blend_channel_bounds (pen dst mix : ℚ) (hp : pen ≤ 255) (hd : dst ≤ 255)
    (hp0 : 0 ≤ pen) (hd0 : 0 ≤ dst) (hm0 : 0 ≤ mix) (hm1 : mix ≤ 1) :
    0 ≤ pen * mix + dst * (1 - mix) ∧ pen * mix + dst * (1 - mix) ≤ 255 := by
  constructor <;> nlinarith

/-! Claim theorems. -/

/-- Claim C2: map(value, in_lo, in_hi, out_lo, out_hi) is the affine
transform out_lo + (value - in_lo) / (in_hi - in_lo) * (out_hi - out_lo)
with no clamping; for in_lo ≠ in_hi the endpoints map to the output
endpoints, and map 20 0 10 0 100 extrapolates to 200. -/
theorem map_affine (a b c d : ℚ) (h : a ≠ b) :
    (∀ v : ℚ, map v a b c d = c + (v - a) / (b - a) * (d - c))
  ∧ map a a b c d = c ∧ map b a b c d = d ∧ map 20 0 10 0 100 = 200 := by
  refine ⟨fun v => by rw [map]; ring, by simp [map], ?_, by norm_num [map]⟩
  rw [map, div_self (sub_ne_zero_of_ne (Ne.symm h))]
  ring

/-- Witness for map_affine at a = 3, b = 7, c = 5, d = 9. -/
theorem map_affine_witness : map 3 3 7 5 9 = 5 ∧ map 7 3 7 5 9 = 9 :=
  ⟨(map_affine 3 7 5 9 (by norm_num)).2.1, (map_affine 3 7 5 9 (by norm_num)).2.2.1⟩

/-- Claim C4: draw_point silently clips every position outside
[0, 640) x [0, 480), leaving the canvas unchanged, and for every position
inside the bounds writes the corresponding pixel through the current blend
mode. -/
theorem draw_point_clip (c : Canvas) (pos : ℚ × ℚ) :
    ((640 ≤ pos.1 ∨ pos.1 < 0 ∨ 480 ≤ pos.2 ∨ pos.2 < 0) → c.draw_point pos = c)
  ∧ (0 ≤ pos.1 → pos.1 < 640 → 0 ≤ pos.2 → pos.2 < 480 →
      c.draw_point pos =
        match c.blend_mode with
        | BlendMode.Replace => c.point_replace (idx (⌊pos.1⌋).toNat (⌊pos.2⌋).toNat)
        | BlendMode.Blend => c.point_blend (idx (⌊pos.1⌋).toNat (⌊pos.2⌋).toNat)) := by
  constructor
  · intro h
    rw [Canvas.draw_point, if_pos h]
  · intro h1 h2 h3 h4
    rw [Canvas.draw_point, if_neg (by push_neg; exact ⟨h2, h1, h4, h3⟩)]

/-- Witness for draw_point_clip: the out-of-range point (700, 10) leaves a
concrete canvas untouched. -/
theorem draw_point_clip_witness :
    Canvas.draw_point ⟨[1, 2, 3, 4], PALETTE_RGB, (255, 255, 255, 255), BlendMode.Replace⟩
      ((700 : ℚ), 10)
    = ⟨[1, 2, 3, 4], PALETTE_RGB, (255, 255, 255, 255), BlendMode.Replace⟩ :=
  (draw_point_clip _ _).1 (Or.inl (by norm_num))

/-- Claim C3: blend compositing at an in-bounds
pixel: pen alpha 0 leaves the canvas unchanged; pen alpha 255 writes
exactly the pen color; any other alpha writes, on every channel,
pen * mix + dst * (1 - mix) with mix = alpha / 255, truncated to an
integer. -/
theorem point_blend_spec (c : Canvas) (i : ℕ) (h : i + 3 < c.buffer.length)
    (hr : c.pen_color.1 ≤ 255) (hg : c.pen_color.2.1 ≤ 255) (hb : c.pen_color.2.2.1 ≤ 255)
    (hd : ∀ k, c.buffer.getD k 0 ≤ 255) :
    (c.pen_color.2.2.2 = 0 → c.point_blend i = c)
  ∧ (c.pen_color.2.2.2 = 255 →
      (c.point_blend i).buffer.getD i 0 = c.pen_color.1
      ∧ (c.point_blend i).buffer.getD (i + 1) 0 = c.pen_color.2.1
      ∧ (c.point_blend i).buffer.getD (i + 2) 0 = c.pen_color.2.2.1
      ∧ (c.point_blend i).buffer.getD (i + 3) 0 = c.pen_color.2.2.2)
  ∧ (0 < c.pen_color.2.2.2 → c.pen_color.2.2.2 < 255 →
      (c.point_blend i).buffer.getD i 0
        = (⌊(c.pen_color.1 : ℚ) * ((c.pen_color.2.2.2 : ℚ) / 255)
            + (c.buffer.getD i 0 : ℚ) * (1 - (c.pen_color.2.2.2 : ℚ) / 255)⌋).toNat
      ∧ (c.point_blend i).buffer.getD (i + 1) 0
        = (⌊(c.pen_color.2.1 : ℚ) * ((c.pen_color.2.2.2 : ℚ) / 255)
            + (c.buffer.getD (i + 1) 0 : ℚ) * (1 - (c.pen_color.2.2.2 : ℚ) / 255)⌋).toNat
      ∧ (c.point_blend i).buffer.getD (i + 2) 0
        = (⌊(c.pen_color.2.2.1 : ℚ) * ((c.pen_color.2.2.2 : ℚ) / 255)
            + (c.buffer.getD (i + 2) 0 : ℚ) * (1 - (c.pen_color.2.2.2 : ℚ) / 255)⌋).toNat
      ∧ (c.point_blend i).buffer.getD (i + 3) 0
        = (⌊(c.pen_color.2.2.2 : ℚ) * ((c.pen_color.2.2.2 : ℚ) / 255)
            + (c.buffer.getD (i + 3) 0 : ℚ) * (1 - (c.pen_color.2.2.2 : ℚ) / 255)⌋).toNat) := by
  refine ⟨?_, ?_, ?_⟩
  · intro ha
    rw [Canvas.point_blend]
    simp [ha]
  · intro ha
    have hrep : c.point_blend i = c.point_replace i := by
      rw [Canvas.point_blend]
      simp [ha]
    rw [hrep, Canvas.point_replace]
    exact buffer4_getD c.buffer i _ _ _ _ h
  · intro ha0 ha255
    have hne0 : c.pen_color.2.2.2 ≠ 0 := by omega
    have hne255 : c.pen_color.2.2.2 ≠ 255 := by omega
    have hmix0 : (0 : ℚ) ≤ (c.pen_color.2.2.2 : ℚ) / 255 := by positivity
    have hmix1 : (c.pen_color.2.2.2 : ℚ) / 255 ≤ 1 := by
      rw [div_le_one (by norm_num)]
      exact_mod_cast le_of_lt ha255
    have hcast : ∀ n : ℕ, n ≤ 255 → (n : ℚ) ≤ 255 := fun n hn => by exact_mod_cast hn
    have key : c.point_blend i =
        { c with buffer :=
            ((((c.buffer.set i
                (f32_to_u8 ((c.pen_color.1 : ℚ) * ((c.pen_color.2.2.2 : ℚ) / 255)
                  + (c.buffer.getD i 0 : ℚ) * (1 - (c.pen_color.2.2.2 : ℚ) / 255)))).set
                (i + 1)
                (f32_to_u8 ((c.pen_color.2.1 : ℚ) * ((c.pen_color.2.2.2 : ℚ) / 255)
                  + (c.buffer.getD (i + 1) 0 : ℚ) * (1 - (c.pen_color.2.2.2 : ℚ) / 255)))).set
                (i + 2)
                (f32_to_u8 ((c.pen_color.2.2.1 : ℚ) * ((c.pen_color.2.2.2 : ℚ) / 255)
                  + (c.buffer.getD (i + 2) 0 : ℚ) * (1 - (c.pen_color.2.2.2 : ℚ) / 255)))).set
                (i + 3)
                (f32_to_u8 ((c.pen_color.2.2.2 : ℚ) * ((c.pen_color.2.2.2 : ℚ) / 255)
                  + (c.buffer.getD (i + 3) 0 : ℚ) * (1 - (c.pen_color.2.2.2 : ℚ) / 255)))) } := by
      rw [Canvas.point_blend]
      simp [hne0, hne255]
    rw [key]
    have hch : ∀ pen dst : ℕ, pen ≤ 255 → dst ≤ 255 →
        f32_to_u8 ((pen : ℚ) * ((c.pen_color.2.2.2 : ℚ) / 255)
            + (dst : ℚ) * (1 - (c.pen_color.2.2.2 : ℚ) / 255))
          = (⌊(pen : ℚ) * ((c.pen_color.2.2.2 : ℚ) / 255)
            + (dst : ℚ) * (1 - (c.pen_color.2.2.2 : ℚ) / 255)⌋).toNat := by
      intro pen dst hpen hdst
      exact f32_to_u8_of_bounds _
        (blend_channel_bounds (pen : ℚ) (dst : ℚ) _ (hcast pen hpen) (hcast dst hdst)
          (by positivity) (by positivity) hmix0 hmix1).1
        (blend_channel_bounds (pen : ℚ) (dst : ℚ) _ (hcast pen hpen) (hcast dst hdst)
          (by positivity) (by positivity) hmix0 hmix1).2
    obtain ⟨e1, e2, e3, e4⟩ := buffer4_getD c.buffer i
      (f32_to_u8 ((c.pen_color.1 : ℚ) * ((c.pen_color.2.2.2 : ℚ) / 255)
        + (c.buffer.getD i 0 : ℚ) * (1 - (c.pen_color.2.2.2 : ℚ) / 255)))
      (f32_to_u8 ((c.pen_color.2.1 : ℚ) * ((c.pen_color.2.2.2 : ℚ) / 255)
        + (c.buffer.getD (i + 1) 0 : ℚ) * (1 - (c.pen_color.2.2.2 : ℚ) / 255)))
      (f32_to_u8 ((c.pen_color.2.2.1 : ℚ) * ((c.pen_color.2.2.2 : ℚ) / 255)
        + (c.buffer.getD (i + 2) 0 : ℚ) * (1 - (c.pen_color.2.2.2 : ℚ) / 255)))
      (f32_to_u8 ((c.pen_color.2.2.2 : ℚ) * ((c.pen_color.2.2.2 : ℚ) / 255)
        + (c.buffer.getD (i + 3) 0 : ℚ) * (1 - (c.pen_color.2.2.2 : ℚ) / 255))) h
    refine ⟨?_, ?_, ?_, ?_⟩
    · rw [e1]; exact hch _ _ hr (hd _)
    · rw [e2]; exact hch _ _ hg (hd _)
    · rw [e3]; exact hch _ _ hb (hd _)
    · rw [e4]; exact hch _ _ (le_of_lt ha255) (hd _)

/-- Witness for point_blend_spec: pen (200, 100, 50, 128) over a
destination pixel (0, 0, 0, 0) yields (100, 50, 25, 64). -/
theorem point_blend_witness :
    (Canvas.point_blend ⟨[0, 0, 0, 0], [], (200, 100, 50, 128), BlendMode.Blend⟩ 0).buffer.getD 0 0 = 100
  ∧ (Canvas.point_blend ⟨[0, 0, 0, 0], [], (200, 100, 50, 128), BlendMode.Blend⟩ 0).buffer.getD 1 0 = 50
  ∧ (Canvas.point_blend ⟨[0, 0, 0, 0], [], (200, 100, 50, 128), BlendMode.Blend⟩ 0).buffer.getD 2 0 = 25
  ∧ (Canvas.point_blend ⟨[0, 0, 0, 0], [], (200, 100, 50, 128), BlendMode.Blend⟩ 0).buffer.getD 3 0 = 64 := by
  have hd : ∀ k, (⟨[0, 0, 0, 0], [], (200, 100, 50, 128), BlendMode.Blend⟩ : Canvas).buffer.getD k 0 ≤ 255 := by
    intro k
    rcases k with _ | _ | _ | _ | k <;> simp [List.getD]
  have hs := (point_blend_spec ⟨[0, 0, 0, 0], [], (200, 100, 50, 128), BlendMode.Blend⟩ 0
    (by norm_num) (by norm_num) (by norm_num) (by norm_num) hd).2.2 (by norm_num) (by norm_num)
  obtain ⟨e1, e2, e3, e4⟩ := hs
  refine ⟨?_, ?_, ?_, ?_⟩
  · rw [e1]; norm_num [List.getD]; rfl
  · rw [e2]; norm_num [List.getD]; rfl
  · rw [e3]; norm_num [List.getD]; rfl
  · rw [e4]; norm_num [List.getD]; rfl

/-- Bool form of the particle cull test agrees with the spec-side
predicate "post-integration y strictly above the bottom". -/
theorem cull_test_eq (a : Particle) :
    (!(decide ((480 : ℚ) ≤ a.pos.2))) = decide (a.pos.2 < 480) := by
  rcases lt_or_le a.pos.2 480 with hc | hc
  · simp [hc, not_le.mpr hc]
  · simp [hc, not_lt.mpr hc]

/-- Counterexample to claim C5 as stated: a particle whose vertical
position is set to exactly height (480) but which moves upward is NOT
removed by one update() call, because integration (pos += vel) runs before
the cull test. -/
theorem particles_update_cex :
    (⟨(0, 480), (0, -10), 0⟩ : Particle).pos.2 = 480
  ∧ (Particles.update (1 / 30) ⟨[⟨(0, 480), (0, -10), 0⟩], []⟩).particles ≠ [] := by
  constructor
  · rfl
  · norm_num [Particles.update, Particle.update, GRAVITY, List.filter]

/-- Claim C5 (amended): update() integrates every particle one timestep
and then removes exactly the particles whose post-integration vertical
position has reached or passed the bottom boundary (y ≥ height); never for
top/left/right or age.  The by-example sentences hold for particles with
zero velocity: set to y = height (or beyond) it is removed after one
update, strictly above height it is retained (an upward-moving particle at
y = height may instead survive, as integration precedes the cull). -/
theorem particles_update_spec (ft : ℚ) (st : Particles) :
    (Particles.update ft st).particles
      = (st.particles.map (Particle.update ft)).filter (fun p => decide (p.pos.2 < 480))
  ∧ (∀ (p : Particle) (ls : List ((ℚ × ℚ) × (ℚ × ℚ))), p.vel = (0, 0) → 480 ≤ p.pos.2 →
      (Particles.update ft ⟨[p], ls⟩).particles = [])
  ∧ (∀ (p : Particle) (ls : List ((ℚ × ℚ) × (ℚ × ℚ))), p.vel = (0, 0) → p.pos.2 < 480 →
      (Particles.update ft ⟨[p], ls⟩).particles = [Particle.update ft p]) := by
  refine ⟨?_, ?_, ?_⟩
  · rw [Particles.update]
    exact List.filter_congr (fun a _ => cull_test_eq a)
  · intro p ls hv hy
    simp [Particles.update, Particle.update, hv, List.filter, hy]
  · intro p ls hv hy
    simp [Particles.update, Particle.update, hv, List.filter, not_le.mpr hy]

/-- Witness for particles_update_spec: a motionless particle at the bottom
boundary is culled by one update. -/
theorem particles_update_witness :
    (Particles.update (1 / 30) ⟨[⟨(5, 480), (0, 0), 0⟩], []⟩).particles = [] :=
  (particles_update_spec (1 / 30) ⟨[⟨(5, 480), (0, 0), 0⟩], []⟩).2.1
    ⟨(5, 480), (0, 0), 0⟩ [] rfl (by norm_num)

/-- The fold of note_find_lowest_highest only lowers its first component,
only raises its second, and bounds every pitch of the list. -/
theorem nflh_fold_bounds :
    ∀ (l : List (ℚ × ℕ)) (acc : ℕ × ℕ),
      (l.foldl (fun lh n =>
          (if n.2 < lh.1 then n.2 else lh.1, if lh.2 < n.2 then n.2 else lh.2)) acc).1 ≤ acc.1
    ∧ acc.2 ≤ (l.foldl (fun lh n =>
          (if n.2 < lh.1 then n.2 else lh.1, if lh.2 < n.2 then n.2 else lh.2)) acc).2
    ∧ ∀ n ∈ l,
        (l.foldl (fun lh n =>
          (if n.2 < lh.1 then n.2 else lh.1, if lh.2 < n.2 then n.2 else lh.2)) acc).1 ≤ n.2
      ∧ n.2 ≤ (l.foldl (fun lh n =>
          (if n.2 < lh.1 then n.2 else lh.1, if lh.2 < n.2 then n.2 else lh.2)) acc).2 := by
  intro l
  induction l with
  | nil => exact fun acc => ⟨le_refl _, le_refl _, by simp⟩
  | cons a t ih =>
    intro acc
    obtain ⟨ih1, ih2, ih3⟩ := ih (if a.2 < acc.1 then a.2 else acc.1, if acc.2 < a.2 then a.2 else acc.2)
    refine ⟨le_trans ih1 (by dsimp only; split <;> omega),
            le_trans (by dsimp only; split <;> omega) ih2, ?_⟩
    intro n hn
    rcases List.mem_cons.mp hn with he | ht
    · subst he
      exact ⟨le_trans ih1 (by dsimp only; split <;> omega),
             le_trans (by dsimp only; split <;> omega) ih2⟩
    · exact ih3 n ht

/-- Counterexample to claim C6 as stated: for the pitch range [60, 67] of
the spec's end-to-end example, the highest pitch maps to palette index 5,
which is NOT strictly less than the palette length 5 (select_color's
modulo is what keeps the access in bounds). -/
theorem paletteIndex_cex :
    paletteIndex 67 60 67 = PALETTE_RGB.length
  ∧ ¬(paletteIndex 67 60 67 < PALETTE_RGB.length) := by
  have h : paletteIndex 67 60 67 = 5 := by
    have hm : map ((67 : ℕ) : ℚ) ((60 : ℕ) : ℚ) ((67 : ℕ) : ℚ) 0 5 = 5 := by
      norm_num [map]
    rw [paletteIndex, hm, rustRound, if_pos (by norm_num), u8cast]
    norm_num
    rfl
  rw [h]
  constructor
  · rfl
  · simp [PALETTE_RGB]

/-- Claim C6 (amended): for every note of the table, the trail palette
index round(map(pitch, lowest, highest, 0, 5)) lies in the CLOSED range
[0, palette_length] — it equals palette_length when pitch = highest — and
select_color reduces it modulo the palette length, so the color actually
selected is always a palette entry. -/
theorem paletteIndex_spec (notes : List (ℚ × ℕ)) (n : ℚ × ℕ) (low high : ℕ)
    (hmem : n ∈ notes) (hlh : note_find_lowest_highest notes = (low, high))
    (hlt : low < high) :
    paletteIndex n.2 low high ≤ PALETTE_RGB.length
  ∧ paletteIndex n.2 low high % PALETTE_RGB.length < PALETTE_RGB.length
  ∧ ∀ c : Canvas, c.palette = PALETTE_RGB →
      (c.select_color (paletteIndex n.2 low high)).pen_color ∈ PALETTE_RGB := by
  have hb := (nflh_fold_bounds notes (255, 0)).2.2 n hmem
  rw [note_find_lowest_highest] at hlh
  rw [hlh] at hb
  obtain ⟨hlo, hhi⟩ := hb
  have hloq : (low : ℚ) ≤ (n.2 : ℚ) := by exact_mod_cast hlo
  have hhiq : (n.2 : ℚ) ≤ (high : ℚ) := by exact_mod_cast hhi
  have hden : (0 : ℚ) < (high : ℚ) - (low : ℚ) := by
    have : (low : ℚ) < (high : ℚ) := by exact_mod_cast hlt
    linarith
  have hx0 : (0 : ℚ) ≤ map (n.2 : ℚ) (low : ℚ) (high : ℚ) 0 5 := by
    rw [map]
    have h1 : (0 : ℚ) ≤ ((n.2 : ℚ) - low) / ((high : ℚ) - low) :=
      div_nonneg (by linarith) (le_of_lt hden)
    nlinarith
  have hx5 : map (n.2 : ℚ) (low : ℚ) (high : ℚ) 0 5 ≤ 5 := by
    rw [map]
    have h1 : ((n.2 : ℚ) - low) / ((high : ℚ) - low) ≤ 1 := by
      rw [div_le_one hden]
      linarith
    nlinarith
  have hround : rustRound (map (n.2 : ℚ) (low : ℚ) (high : ℚ) 0 5) ≤ 5 := by
    rw [rustRound, if_pos hx0]
    have : ⌊map (n.2 : ℚ) (low : ℚ) (high : ℚ) 0 5 + 1 / 2⌋ < 6 :=
      Int.floor_lt.mpr (by push_cast; linarith)
    omega
  have hidx : paletteIndex n.2 low high ≤ 5 := by
    rw [paletteIndex, u8cast]
    have : (rustRound (map (n.2 : ℚ) (low : ℚ) (high : ℚ) 0 5)).toNat ≤ 5 := by omega
    omega
  have hlen : PALETTE_RGB.length = 5 := rfl
  refine ⟨by rw [hlen]; exact hidx, by rw [hlen]; omega, ?_⟩
  intro c hpal
  rw [Canvas.select_color]
  dsimp only
  rw [hpal]
  rw [List.getD_eq_getElem _ _ (by rw [hlen]; exact Nat.mod_lt _ (by norm_num))]
  exact List.getElem_mem _

/-- Witness for paletteIndex_spec at the spec's example table
[(0, 60), (0.5, 64), (1, 67)], note (0.5, 64). -/
theorem paletteIndex_spec_witness :
    paletteIndex 64 60 67 ≤ PALETTE_RGB.length :=
  (paletteIndex_spec [((0 : ℚ), 60), (1 / 2, 64), (1, 67)] ((1 : ℚ) / 2, 64) 60 67
    (by norm_num) (by rfl) (by norm_num)).1

/-- The trigger fold of Sketch::update logs exactly one
particles_for_note call per visible note satisfying the one-frame
threshold, in order. -/
theorem trigger_fold (explode : ℚ × ℚ → List Particle) (t ft v : ℚ) (low high : ℕ) :
    ∀ (l : List (ℚ × ℕ)) (acc : Particles × List (ℚ × ℚ)),
      (l.foldl
        (fun acc note =>
          if note.1 - t < ft then
            (acc.1.particles_for_note explode (pos_for t v low high note),
             acc.2 ++ [pos_for t v low high note])
          else acc)
        acc).2
      = acc.2 ++ (l.filter (fun n => decide (n.1 - t < ft))).map (pos_for t v low high) := by
  intro l
  induction l with
  | nil => intro acc; simp
  | cons a tl ih =>
    intro acc
    by_cases ha : a.1 - t < ft
    · simp only [List.foldl_cons, List.filter_cons, if_pos ha, decide_eq_true_eq, ha,
        if_true, List.map_cons]
      rw [ih]
      simp [List.append_assoc]
    · simp only [List.foldl_cons, List.filter_cons, if_neg ha, decide_eq_true_eq, ha,
        if_false, List.map_cons]
      rw [ih]

/-- Claim C7: in one frame's update, particles_for_note is triggered
exactly once for each note of the visible window whose time-to-arrival is
below one frame duration, in window order, and for no other note.  The
trigger log of sketch_update records the calls. -/
theorem sketch_update_triggers (explode : ℚ × ℚ → List Particle) (notes : List (ℚ × ℕ))
    (frame : ℕ) (ft v : ℚ) (low high : ℕ) (droplets : Particles) :
    (sketch_update explode notes frame ft v low high droplets).2
      = ((update_visible_notes notes ((frame : ℚ) * ft) v).filter
          (fun n => decide (n.1 - (frame : ℚ) * ft < ft))).map
          (pos_for ((frame : ℚ) * ft) v low high) := by
  rw [sketch_update]
  rw [trigger_fold]
  rw [List.nil_append]

/-- Dropping the length of the maximal satisfying prefix is dropWhile. -/
theorem drop_takeWhile_length {α : Type} (p : α → Bool) :
    ∀ l : List α, l.drop (l.takeWhile p).length = l.dropWhile p := by
  intro l
  induction l with
  | nil => rfl
  | cons a t ih =>
    by_cases h : p a
    · simp [List.takeWhile_cons, List.dropWhile_cons, h, ih]
    · simp [List.takeWhile_cons, List.dropWhile_cons, h]

/-- On a list sorted by time, taking while time < c is the same as
filtering time < c: once the threshold fails it fails forever. -/
theorem sorted_takeWhile_lt (c : ℚ) :
    ∀ l : List (ℚ × ℕ), List.Pairwise (fun a b : ℚ × ℕ => a.1 ≤ b.1) l →
      l.takeWhile (fun n => decide (n.1 < c)) = l.filter (fun n => decide (n.1 < c)) := by
  intro l
  induction l with
  | nil => intro _; rfl
  | cons a t ih =>
    intro hp
    obtain ⟨ha, ht⟩ := List.pairwise_cons.mp hp
    by_cases hc : a.1 < c
    · simp [List.takeWhile_cons, List.filter_cons, hc, ih ht]
    · simp only [List.takeWhile_cons, List.filter_cons, decide_eq_true_eq, hc, if_false]
      symm
      rw [List.filter_eq_nil_iff]
      intro b hb
      simp only [decide_eq_true_eq]
      exact fun hlt => hc (lt_of_le_of_lt (ha b hb) hlt)

/-- Claim C1: on a note table sorted (non-decreasing) by time, the visible
window computed via partition_point plus forward scan is exactly the
subsequence of notes with t ≤ time < t + v, in original order. -/
theorem update_visible_notes_spec (notes : List (ℚ × ℕ)) (t v : ℚ)
    (hs : List.Pairwise (fun a b : ℚ × ℕ => a.1 ≤ b.1) notes) :
    update_visible_notes notes t v
      = notes.filter (fun n => decide (t ≤ n.1) && decide (n.1 < t + v)) := by
  rw [update_visible_notes, partition_point, drop_takeWhile_length]
  induction notes with
  | nil => rfl
  | cons a l ih =>
    obtain ⟨ha, hl⟩ := List.pairwise_cons.mp hs
    by_cases hP : a.1 < t
    · rw [List.dropWhile_cons_of_pos (by simpa using hP), ih hl, List.filter_cons,
        if_neg (by simp [not_le.mpr hP])]
    · rw [List.dropWhile_cons_of_neg (by simpa using hP)]
      rw [sorted_takeWhile_lt (t + v) (a :: l) hs]
      refine List.filter_congr ?_
      intro b hb
      have hbt : t ≤ b.1 := by
        rcases List.mem_cons.mp hb with he | hm
        · subst he; exact not_lt.mp hP
        · exact le_trans (not_lt.mp hP) (ha b hm)
      simp [hbt]

/-- Witness for update_visible_notes_spec at the spec's end-to-end
example: table [(0, 60), (0.5, 64), (1, 67)], t = 0.3, v = 0.4 gives
exactly [(0.5, 64)]. -/
theorem update_visible_notes_witness :
    update_visible_notes [((0 : ℚ), 60), (1 / 2, 64), (1, 67)] (3 / 10) (2 / 5)
      = [((1 : ℚ) / 2, 64)] := by
  rw [update_visible_notes_spec [((0 : ℚ), 60), (1 / 2, 64), (1, 67)] (3 / 10) (2 / 5)
    (by norm_num [List.pairwise_cons])]
  norm_num [List.filter]

/-- Claim C10: every position that passes draw_point's clip test -
including positions with NaN or infinite coordinates - is cast to a pixel
coordinate with x < 640 and y < 480, so the computed byte index plus 3 is
below width * height * 4 and the (commented-out) out-of-range branch is
unreachable; a NaN coordinate fails both clip comparisons and is written
at pixel coordinate 0 on its axis. -/
theorem draw_point_safety (x y : F32) (h : clipped (x, y) = false) :
    x.toUsize < 640 ∧ y.toUsize < 480
  ∧ draw_point_index (x, y) + 3 < WIDTH * HEIGHT * 4
  ∧ (x = F32.nan → x.toUsize = 0) ∧ (y = F32.nan → y.toUsize = 0)
  ∧ (∀ cq : ℚ, F32.nan.ge cq = false ∧ F32.nan.lt cq = false) := by
  simp only [clipped, Bool.or_eq_false_iff] at h
  obtain ⟨⟨⟨hx1, hx2⟩, hy1⟩, hy2⟩ := h
  have hx : x.toUsize < 640 := by
    cases x with
    | fin q =>
      simp only [F32.ge, decide_eq_false_iff_not, not_le] at hx1
      simp only [F32.lt, decide_eq_false_iff_not, not_lt] at hx2
      rw [F32.toUsize, if_neg (not_lt.mpr hx2)]
      have hq : ⌊q⌋ < (640 : ℤ) := Int.floor_lt.mpr (by exact_mod_cast hx1)
      exact lt_of_le_of_lt (min_le_left _ _) (by omega)
    | nan => simp [F32.toUsize]
    | inf => simp [F32.ge] at hx1
    | ninf => simp [F32.lt] at hx2
  have hy : y.toUsize < 480 := by
    cases y with
    | fin q =>
      simp only [F32.ge, decide_eq_false_iff_not, not_le] at hy1
      simp only [F32.lt, decide_eq_false_iff_not, not_lt] at hy2
      rw [F32.toUsize, if_neg (not_lt.mpr hy2)]
      have hq : ⌊q⌋ < (480 : ℤ) := Int.floor_lt.mpr (by exact_mod_cast hy1)
      exact lt_of_le_of_lt (min_le_left _ _) (by omega)
    | nan => simp [F32.toUsize]
    | inf => simp [F32.ge] at hy1
    | ninf => simp [F32.lt] at hy2
  refine ⟨hx, hy, ?_, fun he => by rw [he]; rfl, fun he => by rw [he]; rfl,
    fun cq => ⟨rfl, rfl⟩⟩
  have hdi : draw_point_index (x, y) = idx x.toUsize y.toUsize := rfl
  rw [hdi, idx, WIDTH, HEIGHT]
  omega


/-- Witness for draw_point_safety: a NaN x coordinate is not clipped and
lands at pixel column 0, with an in-bounds byte index. -/
theorem draw_point_safety_witness :
    clipped (F32.nan, F32.fin 10) = false
  ∧ F32.nan.toUsize = 0
  ∧ draw_point_index (F32.nan, F32.fin 10) + 3 < WIDTH * HEIGHT * 4 := by
  have hc : clipped (F32.nan, F32.fin 10) = false := by
    norm_num [clipped, F32.ge, F32.lt]
  exact ⟨hc, (draw_point_safety F32.nan (F32.fin 10) hc).2.2.2.1 rfl,
    (draw_point_safety F32.nan (F32.fin 10) hc).2.2.1⟩

/-- getD of a function mapped over List.range, below the length. -/
theorem getD_map_range {B : Type} (f : ℕ → B) (d : B) (n k : ℕ) (h : k < n) :
    ((List.range n).map f).getD k d = f k := by
  rw [List.getD_eq_getElem _ _ (by simpa using h)]
  simp

/-- getD of a function mapped over List.range' 1, below the length. -/
theorem getD_map_range_one {B : Type} (f : ℕ → B) (d : B) (m k : ℕ) (h : k < m) :
    ((List.range' 1 m).map f).getD k d = f (1 + k) := by
  rw [List.getD_eq_getElem _ _ (by simpa using h)]
  simp

/-- Claim C8: draw_line samples a number of points equal to the larger of
the absolute x/y deltas (cast as usize), each placed at `from` plus the
normalized direction vector times the integer step magnitude, so
consecutive samples are unit distance apart whenever from ≠ to; the
degenerate call with from = to takes zero steps and leaves the buffer
unchanged. -/
theorem draw_line_spec (c : Canvas) (p q : ℝ × ℝ) :
    (lineSamples p q).length = (⌊max |q.1 - p.1| |q.2 - p.2|⌋).toNat
  ∧ Canvas.draw_line c p q = (lineSamples p q).foldl Canvas.draw_point c
  ∧ (∀ k : ℕ, k < (lineSamples p q).length →
      (lineSamples p q).getD k (0, 0)
        = (p.1 + (q.1 - p.1) / Real.sqrt ((q.1 - p.1) ^ 2 + (q.2 - p.2) ^ 2) * (k : ℝ),
           p.2 + (q.2 - p.2) / Real.sqrt ((q.1 - p.1) ^ 2 + (q.2 - p.2) ^ 2) * (k : ℝ)))
  ∧ (p ≠ q → ∀ k : ℕ, k + 1 < (lineSamples p q).length →
      euclid ((lineSamples p q).getD (k + 1) (0, 0)) ((lineSamples p q).getD k (0, 0)) = 1)
  ∧ (p = q → Canvas.draw_line c p q = c) := by
  have hform : lineSamples p q
      = (List.range ((⌊max |q.1 - p.1| |q.2 - p.2|⌋).toNat)).map
          (fun step : ℕ =>
            (p.1 + (q.1 - p.1) / Real.sqrt ((q.1 - p.1) ^ 2 + (q.2 - p.2) ^ 2) * (step : ℝ),
             p.2 + (q.2 - p.2) / Real.sqrt ((q.1 - p.1) ^ 2 + (q.2 - p.2) ^ 2) * (step : ℝ))) := by
    simp only [lineSamples]
  have hlen : (lineSamples p q).length = (⌊max |q.1 - p.1| |q.2 - p.2|⌋).toNat := by
    rw [hform, List.length_map, List.length_range]
  have hget : ∀ k : ℕ, k < (lineSamples p q).length →
      (lineSamples p q).getD k (0, 0)
        = (p.1 + (q.1 - p.1) / Real.sqrt ((q.1 - p.1) ^ 2 + (q.2 - p.2) ^ 2) * (k : ℝ),
           p.2 + (q.2 - p.2) / Real.sqrt ((q.1 - p.1) ^ 2 + (q.2 - p.2) ^ 2) * (k : ℝ)) := by
    intro k hk
    rw [hlen] at hk
    rw [hform, getD_map_range _ _ _ _ hk]
  refine ⟨hlen, rfl, hget, ?_, ?_⟩
  · intro hne k hk
    have hk0 : k < (lineSamples p q).length := Nat.lt_of_succ_lt hk
    rw [hget (k + 1) hk, hget k hk0]
    have hor : p.1 ≠ q.1 ∨ p.2 ≠ q.2 := not_and_or.mp (mt Prod.ext_iff.mpr hne)
    have hpos : 0 < (q.1 - p.1) ^ 2 + (q.2 - p.2) ^ 2 := by
      rcases hor with h1 | h2
      · have h1' : q.1 - p.1 ≠ 0 := sub_ne_zero_of_ne (Ne.symm h1)
        have := lt_of_le_of_ne (sq_nonneg (q.1 - p.1)) (Ne.symm (pow_ne_zero 2 h1'))
        nlinarith [sq_nonneg (q.2 - p.2)]
      · have h2' : q.2 - p.2 ≠ 0 := sub_ne_zero_of_ne (Ne.symm h2)
        have := lt_of_le_of_ne (sq_nonneg (q.2 - p.2)) (Ne.symm (pow_ne_zero 2 h2'))
        nlinarith [sq_nonneg (q.1 - p.1)]
    have hlen2 : Real.sqrt ((q.1 - p.1) ^ 2 + (q.2 - p.2) ^ 2) ^ 2
        = (q.1 - p.1) ^ 2 + (q.2 - p.2) ^ 2 := Real.sq_sqrt (le_of_lt hpos)
    rw [euclid]
    have hexp : ((q.1 - p.1) / Real.sqrt ((q.1 - p.1) ^ 2 + (q.2 - p.2) ^ 2)) ^ 2
        + ((q.2 - p.2) / Real.sqrt ((q.1 - p.1) ^ 2 + (q.2 - p.2) ^ 2)) ^ 2 = 1 := by
      rw [div_pow, div_pow, hlen2, div_add_div_same, div_self (ne_of_gt hpos)]
    have harg :
        (p.1 + (q.1 - p.1) / Real.sqrt ((q.1 - p.1) ^ 2 + (q.2 - p.2) ^ 2) * ((k + 1 : ℕ) : ℝ)
          - (p.1 + (q.1 - p.1) / Real.sqrt ((q.1 - p.1) ^ 2 + (q.2 - p.2) ^ 2) * (k : ℝ))) ^ 2
        + (p.2 + (q.2 - p.2) / Real.sqrt ((q.1 - p.1) ^ 2 + (q.2 - p.2) ^ 2) * ((k + 1 : ℕ) : ℝ)
          - (p.2 + (q.2 - p.2) / Real.sqrt ((q.1 - p.1) ^ 2 + (q.2 - p.2) ^ 2) * (k : ℝ))) ^ 2
        = 1 := by
      have hcast : ((k + 1 : ℕ) : ℝ) = (k : ℝ) + 1 := by push_cast; ring
      rw [hcast]
      calc (p.1 + (q.1 - p.1) / Real.sqrt ((q.1 - p.1) ^ 2 + (q.2 - p.2) ^ 2) * ((k : ℝ) + 1)
          - (p.1 + (q.1 - p.1) / Real.sqrt ((q.1 - p.1) ^ 2 + (q.2 - p.2) ^ 2) * (k : ℝ))) ^ 2
        + (p.2 + (q.2 - p.2) / Real.sqrt ((q.1 - p.1) ^ 2 + (q.2 - p.2) ^ 2) * ((k : ℝ) + 1)
          - (p.2 + (q.2 - p.2) / Real.sqrt ((q.1 - p.1) ^ 2 + (q.2 - p.2) ^ 2) * (k : ℝ))) ^ 2
          = ((q.1 - p.1) / Real.sqrt ((q.1 - p.1) ^ 2 + (q.2 - p.2) ^ 2)) ^ 2
            + ((q.2 - p.2) / Real.sqrt ((q.1 - p.1) ^ 2 + (q.2 - p.2) ^ 2)) ^ 2 := by ring
        _ = 1 := hexp
    rw [harg]
    exact Real.sqrt_one
  · intro he
    subst he
    rw [Canvas.draw_line, hform]
    simp

/-- Witness for draw_line_spec: from (0,0) to (3,4) there are 4 samples
with unit spacing between the first two, and the zero-length line leaves a
concrete canvas unchanged. -/
theorem draw_line_spec_witness :
    (lineSamples ((0 : ℝ), 0) ((3 : ℝ), 4)).length = 4
  ∧ euclid ((lineSamples ((0 : ℝ), 0) ((3 : ℝ), 4)).getD 1 (0, 0))
      ((lineSamples ((0 : ℝ), 0) ((3 : ℝ), 4)).getD 0 (0, 0)) = 1
  ∧ Canvas.draw_line ⟨[9], [], (1, 2, 3, 4), BlendMode.Replace⟩ ((5 : ℝ), 6) ((5 : ℝ), 6)
      = ⟨[9], [], (1, 2, 3, 4), BlendMode.Replace⟩ := by
  have hlen : (lineSamples ((0 : ℝ), 0) ((3 : ℝ), 4)).length = 4 := by
    rw [(draw_line_spec ⟨[9], [], (1, 2, 3, 4), BlendMode.Replace⟩ ((0 : ℝ), 0) ((3 : ℝ), 4)).1]
    norm_num
    rfl
  refine ⟨hlen, ?_, ?_⟩
  · exact (draw_line_spec ⟨[9], [], (1, 2, 3, 4), BlendMode.Replace⟩ ((0 : ℝ), 0)
      ((3 : ℝ), 4)).2.2.2.1 (by norm_num [Prod.ext_iff]) 0 (by rw [hlen]; norm_num)
  · exact (draw_line_spec ⟨[9], [], (1, 2, 3, 4), BlendMode.Replace⟩ ((5 : ℝ), 6)
      ((5 : ℝ), 6)).2.2.2.2 rfl

/-- Claim C9 (amended): draw_curve renders the quadratic Bezier by De
Casteljau double interpolation at parameters i / perimeter, where the
perimeter is the sum of the three pairwise Euclidean distances of start,
control and end; the loop runs i = 1 .. n-1 for n = perimeter cast as
usize, so the sample count is n - 1 (saturating at 0) — one FEWER than the
perimeter claimed — and coinciding points give 0 samples. -/
theorem draw_curve_spec (c : Canvas) (s ctl e : ℝ × ℝ) :
    (curvePoints s ctl e).length = (⌊euclid s ctl + euclid ctl e + euclid e s⌋).toNat - 1
  ∧ Canvas.draw_curve c s ctl e = (curvePoints s ctl e).foldl Canvas.draw_point c
  ∧ (∀ j : ℕ, j < (curvePoints s ctl e).length → ∀ t : ℝ,
      t = ((1 + j : ℕ) : ℝ) / (euclid s ctl + euclid ctl e + euclid e s) →
      (curvePoints s ctl e).getD j (0, 0)
        = ((1 - t) ^ 2 * s.1 + 2 * (1 - t) * t * ctl.1 + t ^ 2 * e.1,
           (1 - t) ^ 2 * s.2 + 2 * (1 - t) * t * ctl.2 + t ^ 2 * e.2))
  ∧ (s = ctl → ctl = e → curvePoints s ctl e = []) := by
  have hform : curvePoints s ctl e
      = (List.range' 1 ((⌊euclid s ctl + euclid ctl e + euclid e s⌋).toNat - 1)).map
          (fun i : ℕ =>
            let proportion : ℝ := (i : ℝ) / (euclid s ctl + euclid ctl e + euclid e s)
            let point1 := (s.1 + (ctl.1 - s.1) * proportion, s.2 + (ctl.2 - s.2) * proportion)
            let point2 :=
              (ctl.1 + (e.1 - ctl.1) * proportion, ctl.2 + (e.2 - ctl.2) * proportion)
            (point1.1 + (point2.1 - point1.1) * proportion,
             point1.2 + (point2.2 - point1.2) * proportion)) := by
    simp only [curvePoints]
  have hlen : (curvePoints s ctl e).length
      = (⌊euclid s ctl + euclid ctl e + euclid e s⌋).toNat - 1 := by
    rw [hform, List.length_map, List.length_range']
  refine ⟨hlen, rfl, ?_, ?_⟩
  · intro j hj t ht
    rw [hlen] at hj
    rw [hform, getD_map_range_one _ _ _ _ hj]
    subst ht
    dsimp only
    refine Prod.ext ?_ ?_ <;> ring
  · intro h1 h2
    subst h1
    subst h2
    have hz : euclid s s = 0 := by simp [euclid]
    rw [hform, hz]
    norm_num

/-- Counterexample to claim C9 as stated: with start = control = (0,0) and
end = (3,0), the perimeter (sum of the three pairwise distances) is 6, but
only 5 samples are drawn (the loop starts at 1), so the sample count does
not equal the distance sum. -/
theorem draw_curve_count_cex :
    euclid ((0 : ℝ), (0 : ℝ)) ((0 : ℝ), (0 : ℝ))
      + euclid ((0 : ℝ), (0 : ℝ)) ((3 : ℝ), (0 : ℝ))
      + euclid ((3 : ℝ), (0 : ℝ)) ((0 : ℝ), (0 : ℝ)) = 6
  ∧ (curvePoints ((0 : ℝ), 0) ((0 : ℝ), 0) ((3 : ℝ), 0)).length = 5
  ∧ ((curvePoints ((0 : ℝ), 0) ((0 : ℝ), 0) ((3 : ℝ), 0)).length : ℝ)
      ≠ euclid ((0 : ℝ), (0 : ℝ)) ((0 : ℝ), (0 : ℝ))
        + euclid ((0 : ℝ), (0 : ℝ)) ((3 : ℝ), (0 : ℝ))
        + euclid ((3 : ℝ), (0 : ℝ)) ((0 : ℝ), (0 : ℝ)) := by
  have h9 : Real.sqrt 9 = 3 := by
    rw [show (9 : ℝ) = 3 ^ 2 by norm_num, Real.sqrt_sq (by norm_num)]
  have he1 : euclid ((0 : ℝ), (0 : ℝ)) ((0 : ℝ), (0 : ℝ)) = 0 := by simp [euclid]
  have he2 : euclid ((0 : ℝ), (0 : ℝ)) ((3 : ℝ), (0 : ℝ)) = 3 := by
    rw [euclid]
    norm_num [h9]
  have he3 : euclid ((3 : ℝ), (0 : ℝ)) ((0 : ℝ), (0 : ℝ)) = 3 := by
    rw [euclid]
    norm_num [h9]
  have hsum : euclid ((0 : ℝ), (0 : ℝ)) ((0 : ℝ), (0 : ℝ))
      + euclid ((0 : ℝ), (0 : ℝ)) ((3 : ℝ), (0 : ℝ))
      + euclid ((3 : ℝ), (0 : ℝ)) ((0 : ℝ), (0 : ℝ)) = 6 := by
    rw [he1, he2, he3]
    norm_num
  have hlen : (curvePoints ((0 : ℝ), 0) ((0 : ℝ), 0) ((3 : ℝ), 0)).length = 5 := by
    rw [curvePoints]
    rw [List.length_map, List.length_range']
    rw [he1, he2, he3]
    norm_num
    rfl
  refine ⟨hsum, hlen, ?_⟩
  rw [hlen, hsum]
  norm_num

/-- Witness for draw_curve_spec: coinciding control points produce zero
samples, and a concrete interior sample of the curve (0,0)-(0,0)-(3,0)
matches the Bernstein form. -/
theorem draw_curve_spec_witness :
    curvePoints ((7 : ℝ), 8) ((7 : ℝ), 8) ((7 : ℝ), 8) = []
  ∧ (curvePoints ((0 : ℝ), 0) ((0 : ℝ), 0) ((3 : ℝ), 0)).getD 0 (0, 0)
      = ((1 - ((1 : ℕ) : ℝ) / (euclid ((0 : ℝ), (0 : ℝ)) ((0 : ℝ), (0 : ℝ))
            + euclid ((0 : ℝ), (0 : ℝ)) ((3 : ℝ), (0 : ℝ))
            + euclid ((3 : ℝ), (0 : ℝ)) ((0 : ℝ), (0 : ℝ)))) ^ 2 * 0
          + 2 * (1 - ((1 : ℕ) : ℝ) / (euclid ((0 : ℝ), (0 : ℝ)) ((0 : ℝ), (0 : ℝ))
            + euclid ((0 : ℝ), (0 : ℝ)) ((3 : ℝ), (0 : ℝ))
            + euclid ((3 : ℝ), (0 : ℝ)) ((0 : ℝ), (0 : ℝ))))
            * (((1 : ℕ) : ℝ) / (euclid ((0 : ℝ), (0 : ℝ)) ((0 : ℝ), (0 : ℝ))
            + euclid ((0 : ℝ), (0 : ℝ)) ((3 : ℝ), (0 : ℝ))
            + euclid ((3 : ℝ), (0 : ℝ)) ((0 : ℝ), (0 : ℝ)))) * 0
          + (((1 : ℕ) : ℝ) / (euclid ((0 : ℝ), (0 : ℝ)) ((0 : ℝ), (0 : ℝ))
            + euclid ((0 : ℝ), (0 : ℝ)) ((3 : ℝ), (0 : ℝ))
            + euclid ((3 : ℝ), (0 : ℝ)) ((0 : ℝ), (0 : ℝ)))) ^ 2 * 3,
         (1 - ((1 : ℕ) : ℝ) / (euclid ((0 : ℝ), (0 : ℝ)) ((0 : ℝ), (0 : ℝ))
            + euclid ((0 : ℝ), (0 : ℝ)) ((3 : ℝ), (0 : ℝ))
            + euclid ((3 : ℝ), (0 : ℝ)) ((0 : ℝ), (0 : ℝ)))) ^ 2 * 0
          + 2 * (1 - ((1 : ℕ) : ℝ) / (euclid ((0 : ℝ), (0 : ℝ)) ((0 : ℝ), (0 : ℝ))
            + euclid ((0 : ℝ), (0 : ℝ)) ((3 : ℝ), (0 : ℝ))
            + euclid ((3 : ℝ), (0 : ℝ)) ((0 : ℝ), (0 : ℝ))))
            * (((1 : ℕ) : ℝ) / (euclid ((0 : ℝ), (0 : ℝ)) ((0 : ℝ), (0 : ℝ))
            + euclid ((0 : ℝ), (0 : ℝ)) ((3 : ℝ), (0 : ℝ))
            + euclid ((3 : ℝ), (0 : ℝ)) ((0 : ℝ), (0 : ℝ)))) * 0
          + (((1 : ℕ) : ℝ) / (euclid ((0 : ℝ), (0 : ℝ)) ((0 : ℝ), (0 : ℝ))
            + euclid ((0 : ℝ), (0 : ℝ)) ((3 : ℝ), (0 : ℝ))
            + euclid ((3 : ℝ), (0 : ℝ)) ((0 : ℝ), (0 : ℝ)))) ^ 2 * 0) := by
  constructor
  · exact (draw_curve_spec ⟨[9], [], (1, 2, 3, 4), BlendMode.Replace⟩
      ((7 : ℝ), 8) ((7 : ℝ), 8) ((7 : ℝ), 8)).2.2.2 rfl rfl
  · have h := (draw_curve_spec ⟨[9], [], (1, 2, 3, 4), BlendMode.Replace⟩
      ((0 : ℝ), 0) ((0 : ℝ), 0) ((3 : ℝ), 0)).2.2.1 0 ?_ _ rfl
    · exact h
    · have h9 : Real.sqrt 9 = 3 := by
        rw [show (9 : ℝ) = 3 ^ 2 by norm_num, Real.sqrt_sq (by norm_num)]
      have hlen := (draw_curve_spec ⟨[9], [], (1, 2, 3, 4), BlendMode.Replace⟩
        ((0 : ℝ), 0) ((0 : ℝ), 0) ((3 : ℝ), 0)).1
      rw [hlen]
      have he1 : euclid ((0 : ℝ), (0 : ℝ)) ((0 : ℝ), (0 : ℝ)) = 0 := by simp [euclid]
      have he2 : euclid ((0 : ℝ), (0 : ℝ)) ((3 : ℝ), (0 : ℝ)) = 3 := by
        rw [euclid]
        norm_num [h9]
      have he3 : euclid ((3 : ℝ), (0 : ℝ)) ((0 : ℝ), (0 : ℝ)) = 3 := by
        rw [euclid]
        norm_num [h9]
      rw [he1, he2, he3]
      norm_num
